import Mathlib

/-!
Verification of the ModifiedLog scale (src/src/scales/modifiedLogScale.ts).

The numeric code is embedded over the real numbers: JavaScript's `Math.log`
becomes `Real.log`, `Math.pow(base, x)` becomes `Real.rpow`, `Math.floor` and
`Math.ceil` become `Int.floor` and `Int.ceil` cast back to `ℝ`.  The owned
d3 linear scale is embedded as an explicit affine map between a domain pair
and a range pair.  Stateful methods become functions from the scale record to
a new scale record together with the number of change notifications fired.
JavaScript's `Array.prototype.sort` with the numeric comparator is embedded
as insertion sort (any sorting permutation is an adequate model), and
`d3.range(start, stop, step)` as the arithmetic sequence from `start` of
length `⌈(stop - start) / step⌉` (stop exclusive), which is what the d3
while-loop produces.
-/

noncomputable section

/-- The underlying d3 linear scale: an affine map determined by a domain
pair and a range pair, with its inverse.  This is the external linear-mapping
primitive the ModifiedLog scale wraps. -/
structure LinearScale where
  dom : ℝ × ℝ
  rng : ℝ × ℝ

namespace LinearScale

/-- `map x` interpolates: `r0 + (x - d0) * (r1 - r0) / (d1 - d0)`. -/
def map (l : LinearScale) (x : ℝ) : ℝ :=
  l.rng.1 + (x - l.dom.1) * (l.rng.2 - l.rng.1) / (l.dom.2 - l.dom.1)

/-- `invert y` is the inverse interpolation: `d0 + (y - r0) * (d1 - d0) / (r1 - r0)`. -/
def invert (l : LinearScale) (y : ℝ) : ℝ :=
  l.dom.1 + (y - l.rng.1) * (l.dom.2 - l.dom.1) / (l.rng.2 - l.rng.1)

end LinearScale

/-- `d3.range(start, stop, step)`: the arithmetic progression from `start`
with the given step, `stop` exclusive.  Its length is the number of indices
`i` with `start + step * i` strictly on the `start` side of `stop`, which is
`⌈(stop - start) / step⌉` clamped to be nonnegative. -/
def d3Range (start stop step : ℝ) : List ℝ :=
  (List.range (⌈(stop - start) / step⌉.toNat)).map (fun i : ℕ => start + step * (i : ℝ))

/-- Helper for `uniqNumbers`: keep the elements not yet seen, first
occurrences first, mirroring the d3-set-based loop of `Util.Methods`. -/
def uniqNumbersAux : List ℝ → List ℝ → List ℝ
  | _, [] => []
  | seen, x :: xs =>
    if x ∈ seen then uniqNumbersAux seen xs else x :: uniqNumbersAux (x :: seen) xs

/-- Modelled from the spec: `Util.Methods.uniqNumbers` is not among the
analysed sources; per the spec it de-duplicates a number list while
preserving order (first occurrences kept). -/
def uniqNumbers (l : List ℝ) : List ℝ := uniqNumbersAux [] l

/-- The `middle` helper of `ticks()`: sort the three arguments ascending and
take the middle one. -/
def middle (x y z : ℝ) : ℝ :=
  (List.insertionSort (fun a b => a ≤ b) [x, y, z]).getD 1 0

/-- The state of a `Plottable.Scale.ModifiedLog` instance: the log base, the
pivot below which the transform blends into a linear one, the user-facing
domain, the tick-count last requested, and the owned d3 linear scale. -/
structure ModifiedLog where
  base : ℝ
  pivot : ℝ
  untransformedDomain : ℝ × ℝ
  lastRequestedTickCount : ℝ
  d3Scale : LinearScale

namespace ModifiedLog

/-- `adjustedLog` from the source: strip the sign, blend values below the
pivot toward 1, take the base-`base` logarithm and restore the sign. -/
def adjustedLog (s : ModifiedLog) (x : ℝ) : ℝ :=
  let negationFactor : ℝ := if x < 0 then -1 else 1
  let x1 := x * negationFactor
  let x2 := if x1 < s.pivot then x1 + (s.pivot - x1) / s.pivot else x1
  let x3 := Real.log x2 / Real.log s.base
  x3 * negationFactor

/-- `invertedAdjustedLog` from the source: strip the sign, exponentiate,
invert the blend for values below the pivot and restore the sign. -/
def invertedAdjustedLog (s : ModifiedLog) (x : ℝ) : ℝ :=
  let negationFactor : ℝ := if x < 0 then -1 else 1
  let x1 := x * negationFactor
  let x2 := Real.rpow s.base x1
  let x3 := if x2 < s.pivot then s.pivot * (x2 - 1) / (s.pivot - 1) else x2
  x3 * negationFactor

/-- `scale(x)` feeds the adjusted log of `x` into the owned linear scale. -/
def scale (s : ModifiedLog) (x : ℝ) : ℝ :=
  s.d3Scale.map (s.adjustedLog x)

/-- `invert(x)` inverts the linear scale, then the adjusted log. -/
def invert (s : ModifiedLog) (x : ℝ) : ℝ :=
  s.invertedAdjustedLog (s.d3Scale.invert x)

/-- The blend applied to a nonnegative magnitude before taking the log
(the body of `adjustedLog` after the sign is stripped). -/
def blend (p t : ℝ) : ℝ :=
  if t < p then t + (p - t) / p else t

/-- Modelled from the spec: the abstract `QuantitiveScale` base class and the
d3 linear scale construction are not among the analysed sources; the fresh
adapter and the default extent are taken as the standard `[0, 1]` pairs.
`construct b` mirrors the constructor: it builds the scale state (pivot equal
to the base, default domain, tick count 10) and fails with the
invalid-parameter error exactly when `b ≤ 1`, in which case no scale value is
produced. -/
def construct (b : ℝ) : Except String ModifiedLog :=
  let s : ModifiedLog :=
    { base := b, pivot := b, untransformedDomain := (0, 1),
      lastRequestedTickCount := 10, d3Scale := { dom := (0, 1), rng := (0, 1) } }
  if b ≤ 1 then Except.error "ModifiedLogScale: The base must be > 1" else Except.ok s

/-- `_getDomain` returns the stored untransformed domain unchanged. -/
def _getDomain (s : ModifiedLog) : ℝ × ℝ := s.untransformedDomain

/-- `_setDomain` stores the values, sets the adapter's domain to their
adjusted logs, and broadcasts once.  The broadcaster itself is an external
collaborator; the second component counts the change notifications fired. -/
def _setDomain (s : ModifiedLog) (values : ℝ × ℝ) : ModifiedLog × ℕ :=
  let s1 := { s with untransformedDomain := values }
  let transformedDomain := (s1.adjustedLog values.1, s1.adjustedLog values.2)
  ({ s1 with d3Scale := { s1.d3Scale with dom := transformedDomain } }, 1)

/-- `howManyTicks(lower, upper)`: the tick budget for a sub-range,
proportional to its transformed extent, rounded up. -/
def howManyTicks (s : ModifiedLog) (lower upper : ℝ) : ℝ :=
  let adjustedMin := s.adjustedLog (min s.untransformedDomain.1 s.untransformedDomain.2)
  let adjustedMax := s.adjustedLog (max s.untransformedDomain.1 s.untransformedDomain.2)
  let adjustedLower := s.adjustedLog lower
  let adjustedUpper := s.adjustedLog upper
  let proportion := (adjustedUpper - adjustedLower) / (adjustedMax - adjustedMin)
  ((⌈proportion * s.lastRequestedTickCount⌉ : ℤ) : ℝ)

/-- Division as the source's float arithmetic behaves: a zero denominator
yields no finite defined value (JavaScript produces `NaN` or `±Infinity`
there), modelled as `none`. -/
def jsDiv (x y : ℝ) : Option ℝ := if y = 0 then none else some (x / y)

/-- `howManyTicks` with the source's division-by-zero behaviour made
observable: `none` exactly when the proportion's denominator is zero, in
which case the JavaScript original produces a `NaN` tick count rather than a
defined nonnegative integer. -/
def howManyTicksChecked (s : ModifiedLog) (lower upper : ℝ) : Option ℝ :=
  let adjustedMin := s.adjustedLog (min s.untransformedDomain.1 s.untransformedDomain.2)
  let adjustedMax := s.adjustedLog (max s.untransformedDomain.1 s.untransformedDomain.2)
  let adjustedLower := s.adjustedLog lower
  let adjustedUpper := s.adjustedLog upper
  (jsDiv (adjustedUpper - adjustedLower) (adjustedMax - adjustedMin)).map
    (fun proportion => ((⌈proportion * s.lastRequestedTickCount⌉ : ℤ) : ℝ))

/-- `logTicks(lower, upper)` from the source: budget the ticks, choose power
levels of the base, choose integer multiples within one power, form the
clusters, flatten, filter to `[lower, upper]` and sort ascending.
`Util.Methods.flatten` (not among the analysed sources) is list join per the
spec. -/
def logTicks (s : ModifiedLog) (lower upper : ℝ) : List ℝ :=
  let nTicks := s.howManyTicks lower upper
  if nTicks = 0 then []
  else
    let startLogged : ℝ := ((⌊Real.log lower / Real.log s.base⌋ : ℤ) : ℝ)
    let endLogged : ℝ := ((⌈Real.log upper / Real.log s.base⌉ : ℤ) : ℝ)
    let bases := d3Range endLogged startLogged (-((⌈(endLogged - startLogged) / nTicks⌉ : ℤ) : ℝ))
    let nMultiples : ℝ := ((⌊nTicks / (bases.length : ℝ)⌋ : ℤ) : ℝ)
    let multiples := (d3Range s.base 1 (-(s.base - 1) / nMultiples)).map
      (fun x => ((⌊x⌋ : ℤ) : ℝ))
    let uniqMultiples := uniqNumbers multiples
    let clusters := bases.map (fun b => uniqMultiples.map (fun x => Real.rpow s.base (b - 1) * x))
    let flattened := clusters.flatten
    let filtered := flattened.filter (fun x => decide (lower ≤ x ∧ x ≤ upper))
    List.insertionSort (fun a b => a ≤ b) filtered

/-- The tick sequence of `ticks()` for a given state: negative-log ticks
(negated, reversed to ascending), then linear ticks over the middle segment
from the external linear-ticking primitive `linTicks` (a fresh linear scale,
not the owned adapter), then positive-log ticks. -/
def ticksList (linTicks : ℝ → ℝ → ℝ → List ℝ) (s : ModifiedLog) : List ℝ :=
  let dmin := min s.untransformedDomain.1 s.untransformedDomain.2
  let dmax := max s.untransformedDomain.1 s.untransformedDomain.2
  let negativeLower := dmin
  let negativeUpper := middle dmin dmax (-s.pivot)
  let positiveLower := middle dmin dmax s.pivot
  let positiveUpper := dmax
  let negativeLogTicks := ((s.logTicks (-negativeUpper) (-negativeLower)).map (fun x => -x)).reverse
  let positiveLogTicks := s.logTicks positiveLower positiveUpper
  let linearTicks := linTicks negativeUpper positiveLower (s.howManyTicks negativeUpper positiveLower)
  negativeLogTicks ++ linearTicks ++ positiveLogTicks

/-- `ticks(count?)`: with an explicit count the stored
`lastRequestedTickCount` is updated first (the abstract base's behaviour,
modelled from the spec); then the tick sequence is computed from the
resulting state.  The middle component counts change notifications fired
(the source never broadcasts here). -/
def ticks (linTicks : ℝ → ℝ → ℝ → List ℝ) (s : ModifiedLog) (count : Option ℝ) :
    ModifiedLog × ℕ × List ℝ :=
  let s1 := match count with
    | some c => { s with lastRequestedTickCount := c }
    | none => s
  (s1, 0, ticksList linTicks s1)

/-- `copy()` constructs a fresh scale from the same base. -/
def copy (s : ModifiedLog) : Except String ModifiedLog := construct s.base

/-- `_niceDomain` is the identity passthrough. -/
def _niceDomain (s : ModifiedLog) (domain : ℝ × ℝ) : ℝ × ℝ := domain

end ModifiedLog

/-- A freshly constructed base-10 scale: pivot 10, default `[0, 1]` domain
and adapter, default tick count 10 (the payload of `construct 10`). -/
def demoScale : ModifiedLog :=
  { base := 10, pivot := 10, untransformedDomain := (0, 1),
    lastRequestedTickCount := 10, d3Scale := { dom := (0, 1), rng := (0, 1) } }

/-- The base-10 scale after `setDomain([10, 100])`: the adapter's domain
becomes `(1, 2)`. -/
def shiftedScale : ModifiedLog := (demoScale._setDomain (10, 100)).1

/-- A base-2 scale with domain `[2, 8]` and requested tick count 4, used to
exercise `logTicks`. -/
def cexScale : ModifiedLog :=
  { base := 2, pivot := 2, untransformedDomain := (2, 8),
    lastRequestedTickCount := 4, d3Scale := { dom := (0, 1), rng := (0, 1) } }

/-- A base-10 scale whose domain is the zero-width pair `[5, 5]`. -/
def degenerateScale : ModifiedLog :=
  { base := 10, pivot := 10, untransformedDomain := (5, 5),
    lastRequestedTickCount := 10, d3Scale := { dom := (0, 1), rng := (0, 1) } }

namespace LinearScale

theorem invert_map (l : LinearScale) (hd : l.dom.1 ≠ l.dom.2) (hr : l.rng.1 ≠ l.rng.2)
    (x : ℝ) : l.invert (l.map x) = x := by
  unfold map invert
  have hd' : l.dom.2 - l.dom.1 ≠ 0 := sub_ne_zero.mpr (Ne.symm hd)
  have hr' : l.rng.2 - l.rng.1 ≠ 0 := sub_ne_zero.mpr (Ne.symm hr)
  field_simp
  ring

theorem map_strictMono (l : LinearScale) (hd : l.dom.1 < l.dom.2) (hr : l.rng.1 < l.rng.2)
    {x1 x2 : ℝ} (h : x1 < x2) : l.map x1 < l.map x2 := by
  unfold map
  have hd' : (0:ℝ) < l.dom.2 - l.dom.1 := sub_pos.mpr hd
  have hr' : (0:ℝ) < l.rng.2 - l.rng.1 := sub_pos.mpr hr
  have : (x1 - l.dom.1) * (l.rng.2 - l.rng.1) / (l.dom.2 - l.dom.1)
      < (x2 - l.dom.1) * (l.rng.2 - l.rng.1) / (l.dom.2 - l.dom.1) := by
    apply div_lt_div_of_pos_right _ hd'
    exact mul_lt_mul_of_pos_right (by linarith) hr'
  linarith

theorem map_odd (l : LinearScale) (h0 : l.map 0 = 0) (x : ℝ) :
    l.map (-x) = -(l.map x) := by
  unfold map at h0 ⊢
  by_cases hd : l.dom.2 - l.dom.1 = 0
  · simp [hd] at h0 ⊢; linarith
  · have := h0
    field_simp at this ⊢
    ring_nf
    ring_nf at this
    nlinarith [this]

end LinearScale

namespace ModifiedLog

theorem adjustedLog_of_nonneg (s : ModifiedLog) {x : ℝ} (hx : 0 ≤ x) :
    s.adjustedLog x = Real.log (blend s.pivot x) / Real.log s.base := by
  have hneg : ¬ x < 0 := not_lt.mpr hx
  simp [adjustedLog, blend, hneg]

theorem adjustedLog_of_neg (s : ModifiedLog) {x : ℝ} (hx : x < 0) :
    s.adjustedLog x = -(Real.log (blend s.pivot (-x)) / Real.log s.base) := by
  simp [adjustedLog, blend, hx]

theorem blend_eq_of_lt {p t : ℝ} (h : t < p) (hp : p ≠ 0) :
    blend p t = t * (p - 1) / p + 1 := by
  unfold blend
  rw [if_pos h]
  field_simp
  ring

theorem one_le_blend {p t : ℝ} (hp : 1 < p) (ht : 0 ≤ t) : 1 ≤ blend p t := by
  by_cases h : t < p
  · rw [blend_eq_of_lt h (by linarith)]
    have : 0 ≤ t * (p - 1) / p := div_nonneg (mul_nonneg ht (by linarith)) (by linarith)
    linarith
  · unfold blend
    rw [if_neg h]
    push_neg at h
    linarith

theorem one_lt_blend {p t : ℝ} (hp : 1 < p) (ht : 0 < t) : 1 < blend p t := by
  by_cases h : t < p
  · rw [blend_eq_of_lt h (by linarith)]
    have : 0 < t * (p - 1) / p := div_pos (mul_pos ht (by linarith)) (by linarith)
    linarith
  · unfold blend
    rw [if_neg h]
    push_neg at h
    linarith

theorem blend_strictMono {p t1 t2 : ℝ} (hp : 1 < p) (h1 : 0 ≤ t1) (h : t1 < t2) :
    blend p t1 < blend p t2 := by
  have hp0 : (0:ℝ) < p := by linarith
  by_cases h2 : t2 < p
  · have h1p : t1 < p := lt_trans h h2
    rw [blend_eq_of_lt h1p (ne_of_gt hp0), blend_eq_of_lt h2 (ne_of_gt hp0)]
    have : t1 * (p - 1) / p < t2 * (p - 1) / p := by
      apply div_lt_div_of_pos_right _ hp0
      exact mul_lt_mul_of_pos_right h (by linarith)
    linarith
  · push_neg at h2
    by_cases h1p : t1 < p
    · rw [blend_eq_of_lt h1p (ne_of_gt hp0)]
      unfold blend
      rw [if_neg (not_lt.mpr h2)]
      have : t1 * (p - 1) / p < p - 1 := by
        rw [div_lt_iff₀ hp0]
        nlinarith
      linarith
    · unfold blend
      rw [if_neg (not_lt.mpr h2), if_neg h1p]
      exact h

theorem blend_lt_pivot {p t : ℝ} (hp : 1 < p) (h : t < p) : blend p t < p := by
  have hp0 : (0:ℝ) < p := by linarith
  rw [blend_eq_of_lt h (ne_of_gt hp0)]
  rw [div_add' _ _ _ (ne_of_gt hp0), div_lt_iff₀ hp0]
  nlinarith

theorem blend_of_ge {p t : ℝ} (h : p ≤ t) : blend p t = t := by
  unfold blend
  rw [if_neg (not_lt.mpr h)]

theorem blend_zero {p : ℝ} (hp : 0 < p) : blend p 0 = 1 := by
  unfold blend
  rw [if_pos hp]
  field_simp

theorem adjustedLog_zero (s : ModifiedLog) (hp : 0 < s.pivot) : s.adjustedLog 0 = 0 := by
  rw [adjustedLog_of_nonneg s le_rfl, blend_zero hp]
  simp

theorem roundTrip_nonneg (s : ModifiedLog) (hb : 1 < s.base) (hp : s.pivot = s.base)
    {x : ℝ} (hx : 0 ≤ x) : s.invertedAdjustedLog (s.adjustedLog x) = x := by
  have hb0 : (0:ℝ) < s.base := by linarith
  have hp1 : 1 < s.pivot := by rw [hp]; exact hb
  have hblend1 : 1 ≤ blend s.pivot x := one_le_blend hp1 hx
  have hblend0 : (0:ℝ) < blend s.pivot x := by linarith
  have hlogb : 0 < Real.log s.base := Real.log_pos hb
  have hyval : s.adjustedLog x = Real.log (blend s.pivot x) / Real.log s.base :=
    adjustedLog_of_nonneg s hx
  have hy0 : 0 ≤ s.adjustedLog x := by
    rw [hyval]
    exact div_nonneg (Real.log_nonneg hblend1) (le_of_lt hlogb)
  have hrpow : Real.rpow s.base (s.adjustedLog x) = blend s.pivot x := by
    rw [hyval, Real.log_div_log]
    exact Real.rpow_logb hb0 (ne_of_gt hb) hblend0
  simp only [invertedAdjustedLog, if_neg (not_lt.mpr hy0), mul_one, hrpow]
  by_cases hxp : x < s.pivot
  · rw [if_pos (blend_lt_pivot hp1 hxp), blend_eq_of_lt hxp (by linarith)]
    have hpne : s.pivot ≠ 0 := by linarith
    have hpne1 : s.pivot - 1 ≠ 0 := by intro h; linarith [sub_eq_zero.mp h]
    field_simp
  · rw [blend_of_ge (not_lt.mp hxp), if_neg hxp]

theorem invertedAdjustedLog_of_neg (s : ModifiedLog) {y : ℝ} (hy : y < 0) :
    s.invertedAdjustedLog y = -(s.invertedAdjustedLog (-y)) := by
  have hny : ¬ (-y < 0) := not_lt.mpr (le_of_lt (neg_pos.mpr hy))
  simp only [invertedAdjustedLog, if_pos hy, if_neg hny, mul_one, mul_neg_one, neg_neg]

theorem roundTrip (s : ModifiedLog) (hb : 1 < s.base) (hp : s.pivot = s.base)
    (x : ℝ) : s.invertedAdjustedLog (s.adjustedLog x) = x := by
  rcases le_or_lt 0 x with hx | hx
  · exact roundTrip_nonneg s hb hp hx
  · have hp1 : 1 < s.pivot := by rw [hp]; exact hb
    have hxpos : 0 < -x := neg_pos.mpr hx
    have hLpos : 0 < Real.log (blend s.pivot (-x)) / Real.log s.base :=
      div_pos (Real.log_pos (one_lt_blend hp1 hxpos)) (Real.log_pos hb)
    rw [adjustedLog_of_neg s hx]
    rw [invertedAdjustedLog_of_neg s (by linarith), neg_neg]
    have hrt := roundTrip_nonneg s hb hp (le_of_lt hxpos)
    rw [adjustedLog_of_nonneg s (le_of_lt hxpos)] at hrt
    rw [hrt, neg_neg]

/-- C1: `invertedAdjustedLog` undoes `adjustedLog` exactly in real arithmetic
for every real `x` (the sub-pivot blend and its algebraic inverse cancel),
and consequently `invert (scale x) = x` whenever the owned linear adapter is
nondegenerate — in exact real arithmetic, hence a fortiori within any
floating tolerance. -/
theorem c1_round_trip (s : ModifiedLog) (hb : 1 < s.base) (hp : s.pivot = s.base) (x : ℝ) :
    s.invertedAdjustedLog (s.adjustedLog x) = x ∧
    (s.d3Scale.dom.1 ≠ s.d3Scale.dom.2 → s.d3Scale.rng.1 ≠ s.d3Scale.rng.2 →
      s.invert (s.scale x) = x) := by
  refine ⟨roundTrip s hb hp x, fun hd hr => ?_⟩
  unfold scale invert
  rw [s.d3Scale.invert_map hd hr]
  exact roundTrip s hb hp x

/-- Witness for C1: the hypotheses hold at the fresh base-10 scale and the
round trip holds there at `x = 5`. -/
theorem c1_round_trip_witness :
    demoScale.invertedAdjustedLog (demoScale.adjustedLog 5) = 5 ∧
    demoScale.invert (demoScale.scale 5) = 5 := by
  have h := c1_round_trip demoScale (by norm_num [demoScale]) rfl 5
  exact ⟨h.1, h.2 (by norm_num [demoScale]) (by norm_num [demoScale])⟩

theorem logBlend_strictMonoOn (s : ModifiedLog) (hb : 1 < s.base) (hp1 : 1 < s.pivot)
    {t1 t2 : ℝ} (h1 : 0 ≤ t1) (h : t1 < t2) :
    Real.log (blend s.pivot t1) / Real.log s.base
      < Real.log (blend s.pivot t2) / Real.log s.base := by
  have hlt := blend_strictMono hp1 h1 h
  have h0 : (0:ℝ) < blend s.pivot t1 := by linarith [one_le_blend hp1 h1]
  exact div_lt_div_of_pos_right (Real.log_lt_log h0 hlt) (Real.log_pos hb)

theorem logBlend_nonneg (s : ModifiedLog) (hb : 1 < s.base) (hp1 : 1 < s.pivot)
    {t : ℝ} (ht : 0 ≤ t) : 0 ≤ Real.log (blend s.pivot t) / Real.log s.base :=
  div_nonneg (Real.log_nonneg (one_le_blend hp1 ht)) (le_of_lt (Real.log_pos hb))

theorem logBlend_pos (s : ModifiedLog) (hb : 1 < s.base) (hp1 : 1 < s.pivot)
    {t : ℝ} (ht : 0 < t) : 0 < Real.log (blend s.pivot t) / Real.log s.base :=
  div_pos (Real.log_pos (one_lt_blend hp1 ht)) (Real.log_pos hb)

theorem adjustedLog_strictMono (s : ModifiedLog) (hb : 1 < s.base) (hp1 : 1 < s.pivot)
    {x1 x2 : ℝ} (h : x1 < x2) : s.adjustedLog x1 < s.adjustedLog x2 := by
  by_cases h1 : 0 ≤ x1
  · rw [adjustedLog_of_nonneg s h1, adjustedLog_of_nonneg s (by linarith)]
    exact logBlend_strictMonoOn s hb hp1 h1 h
  · push_neg at h1
    rw [adjustedLog_of_neg s h1]
    by_cases h2 : 0 ≤ x2
    · rw [adjustedLog_of_nonneg s h2]
      have hL := logBlend_pos s hb hp1 (neg_pos.mpr h1)
      have hR := logBlend_nonneg s hb hp1 h2
      linarith
    · push_neg at h2
      rw [adjustedLog_of_neg s h2]
      have := logBlend_strictMonoOn s hb hp1 (le_of_lt (neg_pos.mpr h2)) (by linarith : -x2 < -x1)
      linarith

/-- C2: `adjustedLog` is strictly increasing on all of `ℝ` (the sub-pivot
blend branch joins the log branch continuously at the pivot: the blend
formula evaluates to the pivot itself there), and `scale` is strictly
increasing whenever the adapter's domain and range are increasing pairs. -/
theorem c2_scale_strictMono (s : ModifiedLog) (hb : 1 < s.base) (hp : s.pivot = s.base) :
    (∀ x1 x2 : ℝ, x1 < x2 → s.adjustedLog x1 < s.adjustedLog x2) ∧
    (s.pivot + (s.pivot - s.pivot) / s.pivot = blend s.pivot s.pivot) ∧
    (s.d3Scale.dom.1 < s.d3Scale.dom.2 → s.d3Scale.rng.1 < s.d3Scale.rng.2 →
      ∀ x1 x2 : ℝ, x1 < x2 → s.scale x1 < s.scale x2) := by
  have hp1 : 1 < s.pivot := by rw [hp]; exact hb
  refine ⟨fun x1 x2 h => adjustedLog_strictMono s hb hp1 h, ?_, fun hd hr x1 x2 h => ?_⟩
  · rw [blend_of_ge le_rfl]; simp
  · exact s.d3Scale.map_strictMono hd hr (adjustedLog_strictMono s hb hp1 h)

/-- Witness for C2 at the fresh base-10 scale and the pair `3 < 7`. -/
theorem c2_scale_strictMono_witness :
    demoScale.adjustedLog 3 < demoScale.adjustedLog 7 ∧
    demoScale.scale 3 < demoScale.scale 7 := by
  have h := c2_scale_strictMono demoScale (by norm_num [demoScale]) rfl
  exact ⟨h.1 3 7 (by norm_num),
    h.2.2 (by norm_num [demoScale]) (by norm_num [demoScale]) 3 7 (by norm_num)⟩

theorem logTicks_mem (s : ModifiedLog) (lower upper : ℝ) :
    ∀ x ∈ s.logTicks lower upper, lower ≤ x ∧ x ≤ upper := by
  intro x hx
  simp only [logTicks] at hx
  by_cases h : s.howManyTicks lower upper = 0
  · rw [if_pos h] at hx
    simp at hx
  · rw [if_neg h] at hx
    simp only [List.mem_insertionSort, List.mem_filter, decide_eq_true_eq] at hx
    exact hx.2

theorem logTicks_sorted (s : ModifiedLog) (lower upper : ℝ) :
    (s.logTicks lower upper).Sorted (fun u v => u ≤ v) := by
  simp only [logTicks]
  by_cases h : s.howManyTicks lower upper = 0
  · rw [if_pos h]
    exact List.sorted_nil
  · rw [if_neg h]
    exact List.sorted_insertionSort _ _

end ModifiedLog

theorem middle_eq_clamp (a b c : ℝ) (hab : a ≤ b) : middle a b c = max a (min b c) := by
  unfold middle
  rcases le_or_lt b c with h1 | h1
  · rw [min_eq_left h1, max_eq_right hab]
    simp [List.insertionSort, List.orderedInsert, h1, hab]
  · have h1' : ¬ b ≤ c := not_le.mpr h1
    rw [min_eq_right (le_of_lt h1)]
    rcases le_or_lt a c with h2 | h2
    · rw [max_eq_right h2]
      simp [List.insertionSort, List.orderedInsert, h1', h2]
    · have h2' : ¬ a ≤ c := not_le.mpr h2
      rw [max_eq_left (le_of_lt h2)]
      simp [List.insertionSort, List.orderedInsert, h1', h2', hab]

theorem middle_bounds (a b c : ℝ) (hab : a ≤ b) :
    a ≤ middle a b c ∧ middle a b c ≤ b := by
  rw [middle_eq_clamp a b c hab]
  exact ⟨le_max_left _ _, max_le hab (min_le_left _ _)⟩

theorem middle_mono (a b : ℝ) (hab : a ≤ b) {c1 c2 : ℝ} (h : c1 ≤ c2) :
    middle a b c1 ≤ middle a b c2 := by
  rw [middle_eq_clamp a b c1 hab, middle_eq_clamp a b c2 hab]
  exact max_le_max le_rfl (min_le_min le_rfl h)

theorem sorted_reverse_map_neg {l : List ℝ} (hl : l.Sorted (fun u v => u ≤ v)) :
    ((l.map (fun x => -x)).reverse).Sorted (fun u v => u ≤ v) := by
  unfold List.Sorted at hl ⊢
  rw [List.pairwise_reverse, List.pairwise_map]
  exact hl.imp (fun h => neg_le_neg h)

theorem neg_reverse_mem {l : List ℝ} {lo hi : ℝ}
    (hm : ∀ a ∈ l, -hi ≤ a ∧ a ≤ -lo) :
    ∀ x ∈ (l.map (fun x => -x)).reverse, lo ≤ x ∧ x ≤ hi := by
  intro x hx
  rw [List.mem_reverse, List.mem_map] at hx
  obtain ⟨a, ha, rfl⟩ := hx
  have h := hm a ha
  exact ⟨by linarith [h.2], by linarith [h.1]⟩

theorem concat3_sorted_mem {lo a b hi : ℝ} {L1 L2 L3 : List ℝ}
    (h1s : L1.Sorted (fun u v => u ≤ v)) (h2s : L2.Sorted (fun u v => u ≤ v))
    (h3s : L3.Sorted (fun u v => u ≤ v))
    (h1m : ∀ x ∈ L1, lo ≤ x ∧ x ≤ a) (h2m : ∀ x ∈ L2, a ≤ x ∧ x ≤ b)
    (h3m : ∀ x ∈ L3, b ≤ x ∧ x ≤ hi)
    (hla : lo ≤ a) (hab : a ≤ b) (hbh : b ≤ hi) :
    (L1 ++ L2 ++ L3).Sorted (fun u v => u ≤ v) ∧
    ∀ x ∈ L1 ++ L2 ++ L3, lo ≤ x ∧ x ≤ hi := by
  constructor
  · unfold List.Sorted at h1s h2s h3s ⊢
    rw [List.pairwise_append]
    refine ⟨?_, h3s, ?_⟩
    · rw [List.pairwise_append]
      exact ⟨h1s, h2s, fun x hx y hy => le_trans (h1m x hx).2 (h2m y hy).1⟩
    · intro x hx y hy
      rcases List.mem_append.mp hx with h | h
      · exact le_trans (h1m x h).2 (le_trans hab (h3m y hy).1)
      · exact le_trans (h2m x h).2 (h3m y hy).1
  · intro x hx
    rcases List.mem_append.mp hx with h | h
    · rcases List.mem_append.mp h with h' | h'
      · exact ⟨(h1m x h').1, le_trans (h1m x h').2 (le_trans hab hbh)⟩
      · exact ⟨le_trans hla (h2m x h').1, le_trans (h2m x h').2 hbh⟩
    · exact ⟨le_trans hla (le_trans hab (h3m x h).1), (h3m x h).2⟩

namespace ModifiedLog

/-- C3: whenever the external linear-ticking primitive returns, on any
increasing segment, an ascending list of values inside that segment (as d3's
does), the full `ticks()` sequence is ascending, the negative-log, linear
and positive-log segments appear in that order and ascend across the
boundaries, and every tick lies between the domain's min and max. -/
theorem c3_ticks_sorted_and_bounded (linTicks : ℝ → ℝ → ℝ → List ℝ)
    (hlin : ∀ a b c, a ≤ b → (linTicks a b c).Sorted (fun u v => u ≤ v) ∧
        ∀ x ∈ linTicks a b c, a ≤ x ∧ x ≤ b)
    (s : ModifiedLog) (hb : 1 < s.base) (hp : s.pivot = s.base) :
    (ticksList linTicks s).Sorted (fun u v => u ≤ v) ∧
    ∀ x ∈ ticksList linTicks s,
      min s.untransformedDomain.1 s.untransformedDomain.2 ≤ x ∧
      x ≤ max s.untransformedDomain.1 s.untransformedDomain.2 := by
  have hmm : min s.untransformedDomain.1 s.untransformedDomain.2
      ≤ max s.untransformedDomain.1 s.untransformedDomain.2 := min_le_max
  have hpiv0 : (0:ℝ) < s.pivot := by rw [hp]; linarith
  have hbounds1 := middle_bounds (min s.untransformedDomain.1 s.untransformedDomain.2)
    (max s.untransformedDomain.1 s.untransformedDomain.2) (-s.pivot) hmm
  have hbounds2 := middle_bounds (min s.untransformedDomain.1 s.untransformedDomain.2)
    (max s.untransformedDomain.1 s.untransformedDomain.2) s.pivot hmm
  have hmono := middle_mono (min s.untransformedDomain.1 s.untransformedDomain.2)
    (max s.untransformedDomain.1 s.untransformedDomain.2) hmm
    (by linarith : -s.pivot ≤ s.pivot)
  have hnegmem := neg_reverse_mem (fun a ha =>
    logTicks_mem s
      (-(middle (min s.untransformedDomain.1 s.untransformedDomain.2)
          (max s.untransformedDomain.1 s.untransformedDomain.2) (-s.pivot)))
      (-(min s.untransformedDomain.1 s.untransformedDomain.2)) a ha)
  have hnegsorted := sorted_reverse_map_neg
    (logTicks_sorted s
      (-(middle (min s.untransformedDomain.1 s.untransformedDomain.2)
          (max s.untransformedDomain.1 s.untransformedDomain.2) (-s.pivot)))
      (-(min s.untransformedDomain.1 s.untransformedDomain.2)))
  have hl := hlin
    (middle (min s.untransformedDomain.1 s.untransformedDomain.2)
      (max s.untransformedDomain.1 s.untransformedDomain.2) (-s.pivot))
    (middle (min s.untransformedDomain.1 s.untransformedDomain.2)
      (max s.untransformedDomain.1 s.untransformedDomain.2) s.pivot)
    (s.howManyTicks
      (middle (min s.untransformedDomain.1 s.untransformedDomain.2)
        (max s.untransformedDomain.1 s.untransformedDomain.2) (-s.pivot))
      (middle (min s.untransformedDomain.1 s.untransformedDomain.2)
        (max s.untransformedDomain.1 s.untransformedDomain.2) s.pivot)) hmono
  have hposmem := logTicks_mem s
    (middle (min s.untransformedDomain.1 s.untransformedDomain.2)
      (max s.untransformedDomain.1 s.untransformedDomain.2) s.pivot)
    (max s.untransformedDomain.1 s.untransformedDomain.2)
  have hpossorted := logTicks_sorted s
    (middle (min s.untransformedDomain.1 s.untransformedDomain.2)
      (max s.untransformedDomain.1 s.untransformedDomain.2) s.pivot)
    (max s.untransformedDomain.1 s.untransformedDomain.2)
  exact concat3_sorted_mem hnegsorted hl.1 hpossorted hnegmem hl.2 hposmem
    hbounds1.1 hmono hbounds2.2

/-- Witness for C3: the hypotheses hold for the empty linear-ticking
primitive at the fresh base-10 scale. -/
theorem c3_ticks_sorted_and_bounded_witness :
    (ticksList (fun _ _ _ => []) demoScale).Sorted (fun u v => u ≤ v) ∧
    ∀ x ∈ ticksList (fun _ _ _ => []) demoScale,
      min demoScale.untransformedDomain.1 demoScale.untransformedDomain.2 ≤ x ∧
      x ≤ max demoScale.untransformedDomain.1 demoScale.untransformedDomain.2 :=
  c3_ticks_sorted_and_bounded (fun _ _ _ => [])
    (fun _ _ _ _ => ⟨List.sorted_nil, fun x hx => absurd hx (List.not_mem_nil x)⟩)
    demoScale (by norm_num [demoScale]) rfl

theorem adjLog_two_of (s : ModifiedLog) (hb : s.base = 2) (hp : s.pivot = 2) :
    s.adjustedLog 2 = 1 := by
  rw [adjustedLog_of_nonneg s (by norm_num), hp, hb, blend_of_ge le_rfl]
  exact div_self (ne_of_gt (Real.log_pos one_lt_two))

theorem adjLog_eight_of (s : ModifiedLog) (hb : s.base = 2) (hp : s.pivot = 2) :
    s.adjustedLog 8 = 3 := by
  rw [adjustedLog_of_nonneg s (by norm_num), hp, hb, blend_of_ge (by norm_num)]
  rw [show (8:ℝ) = 2 ^ (3:ℕ) by norm_num, Real.log_pow, mul_div_assoc,
      div_self (ne_of_gt (Real.log_pos one_lt_two))]
  norm_num

theorem cex_howManyTicks : cexScale.howManyTicks 2 8 = 4 := by
  have hmin : min cexScale.untransformedDomain.1 cexScale.untransformedDomain.2 = (2:ℝ) := by
    show min (2:ℝ) 8 = 2
    exact min_eq_left (by norm_num)
  have hmax : max cexScale.untransformedDomain.1 cexScale.untransformedDomain.2 = (8:ℝ) := by
    show max (2:ℝ) 8 = 8
    exact max_eq_right (by norm_num)
  simp only [howManyTicks, hmin, hmax]
  rw [adjLog_two_of cexScale rfl rfl, adjLog_eight_of cexScale rfl rfl,
      show cexScale.lastRequestedTickCount = (4:ℝ) from rfl]
  norm_num

theorem cex_logTicks : cexScale.logTicks 2 8 = [2, 4, 4, 8] := by
  have hlog2 : Real.log (2:ℝ) ≠ 0 := ne_of_gt (Real.log_pos one_lt_two)
  have h1 : Real.log (2:ℝ) / Real.log 2 = 1 := div_self hlog2
  have h3 : Real.log (8:ℝ) / Real.log 2 = 3 := by
    rw [show (8:ℝ) = 2 ^ (3:ℕ) by norm_num, Real.log_pow, mul_div_assoc, div_self hlog2]
    norm_num
  have hA : ((⌊(1:ℝ)⌋ : ℤ) : ℝ) = 1 := by norm_num
  have hB : ((⌈(3:ℝ)⌉ : ℤ) : ℝ) = 3 := by norm_num
  have hC : ((⌈((3:ℝ) - 1) / 4⌉ : ℤ) : ℝ) = 1 := by
    rw [show ((3:ℝ) - 1) / 4 = 1/2 by norm_num]
    rw [show ⌈(1/2:ℝ)⌉ = 1 by rw [Int.ceil_eq_iff]; norm_num]
    norm_num
  have hD : d3Range 3 1 (-1) = [(3:ℝ), 2] := by
    unfold d3Range
    rw [show ((1:ℝ) - 3) / (-1) = 2 by norm_num]
    rw [show ⌈(2:ℝ)⌉ = (2:ℤ) by norm_num, show Int.toNat 2 = 2 from rfl,
        show List.range 2 = [0, 1] from rfl]
    simp only [List.map_cons, List.map_nil]
    norm_num
  have hE : ((List.length [(3:ℝ), 2]) : ℝ) = 2 := by norm_num
  have hF : ((⌊(4:ℝ) / 2⌋ : ℤ) : ℝ) = 2 := by norm_num
  have hG : d3Range 2 1 (-((2:ℝ) - 1) / 2) = [2, 3/2] := by
    unfold d3Range
    rw [show ((1:ℝ) - 2) / (-((2:ℝ) - 1) / 2) = 2 by norm_num]
    rw [show ⌈(2:ℝ)⌉ = (2:ℤ) by norm_num, show Int.toNat 2 = 2 from rfl,
        show List.range 2 = [0, 1] from rfl]
    simp only [List.map_cons, List.map_nil]
    norm_num
  have hfloor32 : ⌊(3/2:ℝ)⌋ = 1 := by rw [Int.floor_eq_iff]; norm_num
  have hH : List.map (fun x : ℝ => ((⌊x⌋ : ℤ) : ℝ)) [2, 3/2] = [2, 1] := by
    simp only [List.map_cons, List.map_nil, hfloor32]
    norm_num
  have hI : uniqNumbers [(2:ℝ), 1] = [2, 1] := by
    norm_num [uniqNumbers, uniqNumbersAux]
  have hJ : List.map (fun b => List.map (fun x => Real.rpow 2 (b - 1) * x) [2, 1]) [(3:ℝ), 2]
      = [[8, 4], [4, 2]] := by
    norm_num [Real.rpow_natCast]
  have hK : List.flatten [[(8:ℝ), 4], [4, 2]] = [8, 4, 4, 2] := by simp
  have hL : List.filter (fun x => decide ((2:ℝ) ≤ x ∧ x ≤ 8)) [8, 4, 4, 2]
      = [8, 4, 4, 2] := by
    simp only [List.filter_cons, List.filter_nil, decide_eq_true_eq]
    norm_num
  have hM : List.insertionSort (fun a b => a ≤ b) [(8:ℝ), 4, 4, 2] = [2, 4, 4, 8] := by
    simp only [List.insertionSort, List.orderedInsert]
    norm_num
  simp only [logTicks, cex_howManyTicks, show cexScale.base = (2:ℝ) from rfl, h1, h3]
  rw [if_neg (by norm_num : ¬ (4:ℝ) = 0)]
  rw [hA, hB, hC, hD, hE, hF, hG, hH, hI, hJ, hK, hL, hM]

/-- C5 counterexample: on the base-2 scale with domain `[2, 8]` and a
requested tick count of 4 (all of the claim's side conditions hold:
base > 1, `0 < 2 ≤ 8`), `logTicks 2 8` evaluates to `[2, 4, 4, 8]` — the
value 4 arises once as `2^(3-1) * 1` in the cluster of power 3 and once as
`2^(2-1) * 2` in the cluster of power 2, and the cross-cluster flattening
removes neither — so the returned list has two equal values. -/
theorem c5_logTicks_dup_cex :
    (1:ℝ) < cexScale.base ∧ (0:ℝ) < 2 ∧ (2:ℝ) ≤ 8 ∧
    cexScale.logTicks 2 8 = [2, 4, 4, 8] ∧
    ¬ (cexScale.logTicks 2 8).Nodup := by
  refine ⟨by norm_num [cexScale], by norm_num, by norm_num, cex_logTicks, ?_⟩
  rw [cex_logTicks]
  simp [List.nodup_cons]

theorem uniqNumbersAux_nodup (seen l : List ℝ) :
    (uniqNumbersAux seen l).Nodup ∧ ∀ x ∈ uniqNumbersAux seen l, x ∉ seen := by
  induction l generalizing seen with
  | nil => simp [uniqNumbersAux]
  | cons x xs ih =>
    by_cases hx : x ∈ seen
    · simp only [uniqNumbersAux, if_pos hx]
      exact ih seen
    · simp only [uniqNumbersAux, if_neg hx]
      have h1 := ih (x :: seen)
      constructor
      · rw [List.nodup_cons]
        exact ⟨fun hmem => (h1.2 x hmem) (List.mem_cons_self x seen), h1.1⟩
      · intro y hy
        rcases List.mem_cons.mp hy with rfl | hy'
        · exact hx
        · exact fun hseen => (h1.2 y hy') (List.mem_cons_of_mem x hseen)

theorem uniqNumbers_nodup (l : List ℝ) : (uniqNumbers l).Nodup :=
  (uniqNumbersAux_nodup [] l).1

/-- C5 amended: every value `logTicks` returns lies in the closed interval
`[lower, upper]` and the list is ascending, and the per-cluster multiples
are deduplicated (`uniqNumbers` always yields a duplicate-free list); but
equal values arising from different clusters survive the flattening, so the
returned list itself may contain duplicates. -/
theorem c5_logTicks_amended (s : ModifiedLog) (lower upper : ℝ) (l : List ℝ) :
    (∀ x ∈ s.logTicks lower upper, lower ≤ x ∧ x ≤ upper) ∧
    (s.logTicks lower upper).Sorted (fun u v => u ≤ v) ∧
    (uniqNumbers l).Nodup :=
  ⟨logTicks_mem s lower upper, logTicks_sorted s lower upper, uniqNumbers_nodup l⟩

/-- C4: on a degenerate domain (equal adjusted logs of the domain's min and
max) the proportion in `howManyTicks` divides by zero, so no defined
nonnegative tick count is produced — the source's float arithmetic yields
`NaN` there, which then flows into `ticks()` unchecked. -/
theorem c4_degenerate_domain (s : ModifiedLog) (lower upper : ℝ)
    (h : s.adjustedLog (min s.untransformedDomain.1 s.untransformedDomain.2)
       = s.adjustedLog (max s.untransformedDomain.1 s.untransformedDomain.2)) :
    s.howManyTicksChecked lower upper = none := by
  simp only [howManyTicksChecked, jsDiv]
  rw [← h]
  simp

/-- Witness for C4: the base-10 scale with the zero-width domain `[5, 5]`
has equal adjusted domain endpoints, and its checked tick budget is
undefined. -/
theorem c4_degenerate_domain_witness :
    degenerateScale.adjustedLog
        (min degenerateScale.untransformedDomain.1 degenerateScale.untransformedDomain.2)
      = degenerateScale.adjustedLog
        (max degenerateScale.untransformedDomain.1 degenerateScale.untransformedDomain.2) ∧
    degenerateScale.howManyTicksChecked 5 5 = none := by
  have h : degenerateScale.adjustedLog
      (min degenerateScale.untransformedDomain.1 degenerateScale.untransformedDomain.2)
    = degenerateScale.adjustedLog
      (max degenerateScale.untransformedDomain.1 degenerateScale.untransformedDomain.2) := by
    simp [degenerateScale]
  exact ⟨h, c4_degenerate_domain degenerateScale 5 5 h⟩

/-- C6: construction fails with the invalid-parameter error exactly when the
base is at most 1, and for any larger base succeeds with pivot equal to the
base and a default requested tick count of 10; a failed construction
produces no scale value at all. -/
theorem c6_construct (b : ℝ) :
    (b ≤ 1 → construct b = Except.error "ModifiedLogScale: The base must be > 1") ∧
    (1 < b → ∃ s : ModifiedLog, construct b = Except.ok s ∧
      s.base = b ∧ s.pivot = b ∧ s.lastRequestedTickCount = 10) := by
  constructor
  · intro h
    simp [construct, h]
  · intro h
    have hok : construct b = Except.ok { base := b, pivot := b, untransformedDomain := (0, 1), lastRequestedTickCount := 10, d3Scale := { dom := (0, 1), rng := (0, 1) } } := by
      simp [construct, not_le.mpr h]
    exact ⟨_, hok, rfl, rfl, rfl⟩

/-- Witness for C6: base 1 and base 0.5 fail, base 2 succeeds with pivot 2
and tick count 10. -/
theorem c6_construct_witness :
    construct 1 = Except.error "ModifiedLogScale: The base must be > 1" ∧
    construct (1/2) = Except.error "ModifiedLogScale: The base must be > 1" ∧
    ∃ s : ModifiedLog, construct 2 = Except.ok s ∧
      s.base = 2 ∧ s.pivot = 2 ∧ s.lastRequestedTickCount = 10 :=
  ⟨(c6_construct 1).1 (by norm_num), (c6_construct (1/2)).1 (by norm_num),
    (c6_construct 2).2 (by norm_num)⟩

theorem adjLog_ten_of (s : ModifiedLog) (hb : s.base = 10) (hp : s.pivot = 10) :
    s.adjustedLog 10 = 1 := by
  rw [adjustedLog_of_nonneg s (by norm_num), hp, hb, blend_of_ge le_rfl]
  exact div_self (ne_of_gt (Real.log_pos (by norm_num)))

theorem adjLog_hundred_of (s : ModifiedLog) (hb : s.base = 10) (hp : s.pivot = 10) :
    s.adjustedLog 100 = 2 := by
  rw [adjustedLog_of_nonneg s (by norm_num), hp, hb, blend_of_ge (by norm_num)]
  rw [show (100:ℝ) = 10 ^ (2:ℕ) by norm_num, Real.log_pow, mul_div_assoc,
      div_self (ne_of_gt (Real.log_pos (by norm_num)))]
  norm_num

theorem adjLog_negTen_of (s : ModifiedLog) (hb : s.base = 10) (hp : s.pivot = 10) :
    s.adjustedLog (-10) = -1 := by
  rw [adjustedLog_of_neg s (by norm_num : (-10:ℝ) < 0)]
  simp only [neg_neg]
  rw [hp, hb, blend_of_ge le_rfl, div_self (ne_of_gt (Real.log_pos (by norm_num)))]

theorem shiftedScale_dom : shiftedScale.d3Scale.dom = (1, 2) := by
  show ((demoScale._setDomain (10, 100)).1).d3Scale.dom = (1, 2)
  simp only [ModifiedLog._setDomain]
  rw [adjLog_ten_of _ rfl rfl, adjLog_hundred_of _ rfl rfl]

theorem shiftedScale_map (t : ℝ) : shiftedScale.d3Scale.map t = t - 1 := by
  unfold LinearScale.map
  rw [shiftedScale_dom, show shiftedScale.d3Scale.rng = (0, 1) from rfl]
  norm_num

/-- C7 counterexample: the claim quantifies over every scale state, but on
the reachable base-10 state with domain `[10, 100]` (adapter domain `(1,2)`,
range `(0,1)`) the scale maps 0 to `-1`, not 0. -/
theorem c7_zero_not_fixed_cex :
    construct 10 = Except.ok demoScale ∧
    shiftedScale = (demoScale._setDomain (10, 100)).1 ∧
    shiftedScale.scale 0 = -1 ∧ shiftedScale.scale 0 ≠ 0 := by
  refine ⟨by norm_num [construct, demoScale], rfl, ?_⟩
  have h0 : shiftedScale.adjustedLog 0 = 0 :=
    adjustedLog_zero shiftedScale (by show (0:ℝ) < 10; norm_num)
  have : shiftedScale.scale 0 = -1 := by
    unfold scale
    rw [h0, shiftedScale_map]
    norm_num
  exact ⟨this, by rw [this]; norm_num⟩

/-- C7 amended: `adjustedLog 0 = 0` for every positive pivot (the blend makes
the logarithm argument exactly 1 at `x = 0`), so `scale 0` is the adapter's
image of 0; the zero fixed point `scale 0 = 0` therefore holds exactly in
those states whose linear adapter maps 0 to 0 — in particular the freshly
constructed scale — but not in every state. -/
theorem c7_zero_fixed_amended (s : ModifiedLog) (hp : 0 < s.pivot) :
    s.adjustedLog 0 = 0 ∧ s.scale 0 = s.d3Scale.map 0 ∧
    (s.d3Scale.map 0 = 0 → s.scale 0 = 0) := by
  have h0 := adjustedLog_zero s hp
  exact ⟨h0, by unfold scale; rw [h0], fun hm => by unfold scale; rw [h0, hm]⟩

/-- Witness for the amended C7 at the fresh base-10 scale, whose identity
adapter fixes 0. -/
theorem c7_zero_fixed_amended_witness :
    demoScale.adjustedLog 0 = 0 ∧ demoScale.scale 0 = 0 := by
  have h := c7_zero_fixed_amended demoScale (by show (0:ℝ) < 10; norm_num)
  exact ⟨h.1, h.2.2 (by norm_num [demoScale, LinearScale.map])⟩

/-- C8 counterexample: the claim quantifies over every state, but on the
reachable base-10 state with domain `[10, 100]` the scale sends `-10` to
`-2` while `-scale(10)` is `0`. -/
theorem c8_odd_symmetry_cex :
    construct 10 = Except.ok demoScale ∧
    shiftedScale = (demoScale._setDomain (10, 100)).1 ∧
    shiftedScale.scale (-10) = -2 ∧ shiftedScale.scale 10 = 0 ∧
    shiftedScale.scale (-10) ≠ -(shiftedScale.scale 10) := by
  refine ⟨by norm_num [construct, demoScale], rfl, ?_, ?_, ?_⟩
  · unfold scale
    rw [adjLog_negTen_of shiftedScale rfl rfl, shiftedScale_map]
    norm_num
  · unfold scale
    rw [adjLog_ten_of shiftedScale rfl rfl, shiftedScale_map]
    norm_num
  · unfold scale
    rw [adjLog_negTen_of shiftedScale rfl rfl, adjLog_ten_of shiftedScale rfl rfl,
        shiftedScale_map, shiftedScale_map]
    norm_num

/-- C8 amended: `adjustedLog` is odd (the sign is stripped before the blend
and log and reapplied after), so `scale (-x) = -(scale x)` holds exactly when
the affine adapter is itself odd, i.e. maps 0 to 0 — as in the freshly
constructed scale — but not in every state. -/
theorem c8_odd_symmetry_amended (s : ModifiedLog) (hb : 1 < s.base)
    (hp : s.pivot = s.base) (x : ℝ) :
    s.adjustedLog (-x) = -(s.adjustedLog x) ∧
    (s.d3Scale.map 0 = 0 → s.scale (-x) = -(s.scale x)) := by
  have hp0 : 0 < s.pivot := by rw [hp]; linarith
  have hodd : s.adjustedLog (-x) = -(s.adjustedLog x) := by
    rcases lt_trichotomy x 0 with hx | rfl | hx
    · rw [adjustedLog_of_nonneg s (le_of_lt (neg_pos.mpr hx)), adjustedLog_of_neg s hx, neg_neg]
    · rw [neg_zero, adjustedLog_zero s hp0, neg_zero]
    · rw [adjustedLog_of_neg s (neg_lt_zero.mpr hx), neg_neg,
          adjustedLog_of_nonneg s (le_of_lt hx)]
  refine ⟨hodd, fun hm => ?_⟩
  unfold scale
  rw [hodd]
  exact s.d3Scale.map_odd hm (s.adjustedLog x)

/-- Witness for the amended C8 at the fresh base-10 scale and `x = 7`. -/
theorem c8_odd_symmetry_amended_witness :
    demoScale.adjustedLog (-7) = -(demoScale.adjustedLog 7) ∧
    demoScale.scale (-7) = -(demoScale.scale 7) := by
  have h := c8_odd_symmetry_amended demoScale (by norm_num [demoScale]) rfl 7
  exact ⟨h.1, h.2 (by norm_num [demoScale, LinearScale.map])⟩

/-- C9: after `_setDomain (a, b)` — in any order, no validation — the stored
domain is exactly `(a, b)`, the adapter's domain is the pair of adjusted
logs, exactly one synchronous change notification is fired, and the base,
pivot and tick-count state are untouched. -/
theorem c9_setDomain (s : ModifiedLog) (a b : ℝ) :
    (s._setDomain (a, b)).1._getDomain = (a, b) ∧
    (s._setDomain (a, b)).1.d3Scale.dom = (s.adjustedLog a, s.adjustedLog b) ∧
    (s._setDomain (a, b)).2 = 1 ∧
    (s._setDomain (a, b)).1.base = s.base ∧
    (s._setDomain (a, b)).1.pivot = s.pivot ∧
    (s._setDomain (a, b)).1.lastRequestedTickCount = s.lastRequestedTickCount :=
  ⟨rfl, rfl, rfl, rfl, rfl, rfl⟩

/-- C10: `ticks()` without a count is a pure query — the state (including
the adapter and `lastRequestedTickCount`) is returned unchanged, no
notification fires, and a repeated call returns the same sequence; only an
explicit count mutates `lastRequestedTickCount`. -/
theorem c10_ticks_pure (linTicks : ℝ → ℝ → ℝ → List ℝ) (s : ModifiedLog) :
    (ticks linTicks s none).1 = s ∧
    (ticks linTicks s none).2.1 = 0 ∧
    (ticks linTicks (ticks linTicks s none).1 none).2.2 = (ticks linTicks s none).2.2 ∧
    (∀ c : ℝ, (ticks linTicks s (some c)).1 = { s with lastRequestedTickCount := c } ∧
      (ticks linTicks s (some c)).2.1 = 0) :=
  ⟨rfl, rfl, rfl, fun _ => ⟨rfl, rfl⟩⟩

end ModifiedLog
